import Mathlib

/-!
Verification development for the Pokemon GO library builder and digest
scripts (`build_pogo_library.py`, `digest_from_library.py`).

The pure decision logic of the two scripts is embedded shallowly below:
date-range resolution, slug encoding, URL deduplication, candidate
persistence order, the atomic index-write protocol, category
classification and the calendar export.  External collaborators
(the HTTP fetcher, feedparser, BeautifulSoup traversal, hashlib, the
python-dateutil parser and the filesystem) are modelled explicitly; each
such model carries a doc comment saying what it stands for.
-/

namespace Pogo

/-! ### Character helpers (ASCII, as used by the scripts) -/

/-- ASCII whitespace, the characters Python regex `\s` matches on the
inputs these scripts see (space, tab, newline, carriage return,
vertical tab, form feed). -/
def myIsSpace (c : Char) : Bool :=
  c.toNat == 32 || c.toNat == 9 || c.toNat == 10 || c.toNat == 13 ||
  c.toNat == 11 || c.toNat == 12

/-- ASCII letter, `[A-Za-z]`. -/
def isAlphaCh (c : Char) : Bool :=
  (65 ≤ c.toNat && c.toNat ≤ 90) || (97 ≤ c.toNat && c.toNat ≤ 122)

/-- ASCII digit, `[0-9]`. -/
def isDigitCh (c : Char) : Bool :=
  48 ≤ c.toNat && c.toNat ≤ 57

/-- A character allowed by the slug alphabet `[a-z0-9-]`
(codes 97..122, 48..57 and 45). -/
def isSlugChar (c : Char) : Bool :=
  (97 ≤ c.toNat && c.toNat ≤ 122) || (48 ≤ c.toNat && c.toNat ≤ 57) ||
  c.toNat == 45

/-- Models Python `str.lower` on one ASCII character: upper-case
letters move down by 32, everything else is unchanged. -/
def pyLowerChar (c : Char) : Char :=
  if 65 ≤ c.toNat && c.toNat ≤ 90 then Char.ofNat (c.toNat + 32) else c

/-- Models Python `str.lower` for the ASCII strings the scripts handle. -/
def pyLower (s : String) : String :=
  String.mk (s.toList.map pyLowerChar)

/-! ### Calendar facts -/

/-- Proleptic Gregorian leap-year rule, as used by Python `datetime`. -/
def isLeap (y : Nat) : Bool :=
  (y % 4 == 0 && y % 100 != 0) || y % 400 == 0

/-- Number of days of month `m` of year `y` (Python `datetime` calendar). -/
def daysInMonth (y m : Nat) : Nat :=
  if m == 2 then (if isLeap y then 29 else 28)
  else if m == 4 || m == 6 || m == 9 || m == 11 then 30
  else 31

/-- A calendar date as `datetime.date` carries it: year, month, day. -/
structure PDate where
  year : Nat
  month : Nat
  day : Nat
deriving DecidableEq

/-- Numeric key of a date; on the dates the parser produces
(month at most 12, day at most 31) it orders dates chronologically. -/
def PDate.key (d : PDate) : Nat :=
  (d.year * 100 + d.month) * 100 + d.day

/-- Left-pad the decimal digits of `n` with zeros to width `w`. -/
def padNum (w n : Nat) : String :=
  let s := toString n
  String.mk (List.replicate (w - s.length) '0') ++ s

/-- Models `date.isoformat()`: `YYYY-MM-DD` with zero padding. -/
def isoDate (d : PDate) : String :=
  padNum 4 d.year ++ "-" ++ padNum 2 d.month ++ "-" ++ padNum 2 d.day

/-! ### Model of the external python-dateutil parser

`dtparser.parse(s, fuzzy=f).date()` is a third-party collaborator of
both scripts.  The model below reproduces its behaviour on the date
strings this pipeline feeds it: the lexer splits the input into
alphabetic tokens (absorbing one trailing period, so `Sept.` is one
token), digit tokens and single punctuation tokens; month names and
their usual abbreviations are recognised case-insensitively; separator
tokens of the jump list of the parser (comma, period, hyphen, slash,
ordinal suffixes and similar filler words) are always skippable; any
other unrecognised token makes a non-fuzzy parse raise, while
`fuzzy=True` skips it.  A date results when exactly one month token and
exactly two number tokens appear, the four-digit number giving the year
and the other the day; an invalid calendar day (for example February
30) raises, which the model reports as `none`. -/

/-- Lexer of the dateutil model; `fuel` bounds recursion and is always
called with the length of the input, which every step strictly shrinks. -/
def tokenizeAux : Nat → List Char → List String
  | 0, _ => []
  | _ + 1, [] => []
  | fuel + 1, c :: cs =>
    if myIsSpace c then tokenizeAux fuel cs
    else if isAlphaCh c then
      let run := (c :: cs).takeWhile isAlphaCh
      match (c :: cs).dropWhile isAlphaCh with
      | '.' :: rest2 => String.mk (run ++ ['.']) :: tokenizeAux fuel rest2
      | rest => String.mk run :: tokenizeAux fuel rest
    else if isDigitCh c then
      String.mk ((c :: cs).takeWhile isDigitCh) ::
        tokenizeAux fuel ((c :: cs).dropWhile isDigitCh)
    else String.mk [c] :: tokenizeAux fuel cs

/-- Token stream of the dateutil model. -/
def tokenize (cs : List Char) : List String :=
  tokenizeAux cs.length cs

/-- Drop one trailing period from a token, as the parser does before
looking a month name up. -/
def stripDot (s : String) : String :=
  match s.toList.reverse with
  | '.' :: _ => String.mk s.toList.dropLast
  | _ => s

/-- Month names and abbreviations the parser recognises. -/
def monthNames : List (String × Nat) :=
  [("january", 1), ("february", 2), ("march", 3), ("april", 4),
   ("may", 5), ("june", 6), ("july", 7), ("august", 8),
   ("september", 9), ("october", 10), ("november", 11), ("december", 12),
   ("jan", 1), ("feb", 2), ("mar", 3), ("apr", 4), ("jun", 6),
   ("jul", 7), ("aug", 8), ("sep", 9), ("sept", 9), ("oct", 10),
   ("nov", 11), ("dec", 12)]

/-- Month number of a token, case-insensitive, tolerating one trailing
period (`Sept.`). -/
def monthOf (tok : String) : Option Nat :=
  let t := pyLower (stripDot tok)
  (monthNames.find? (fun mn => mn.1 == t)).map Prod.snd

/-- Decimal value of a list of digit characters. -/
def digitsVal (l : List Char) : Nat :=
  l.foldl (fun acc c => acc * 10 + (c.toNat - 48)) 0

/-- Numeric value and digit count of a token made of digits. -/
def numOf (tok : String) : Option (Nat × Nat) :=
  let l := tok.toList
  if l.isEmpty || !(l.all isDigitCh) then none
  else some (digitsVal l, l.length)

/-- Separator tokens the parser always skips (its jump list). -/
def isJumpTok (tok : String) : Bool :=
  let l := pyLower tok
  l == "," || l == "." || l == ";" || l == "-" || l == "/" ||
  l == "at" || l == "on" || l == "and" || l == "ad" || l == "m" ||
  l == "t" || l == "of" || l == "st" || l == "nd" || l == "rd" || l == "th"

/-- Model of `dtparser.parse(s, fuzzy).date()`; `none` models the call
raising (`ValueError` / `ParserError`). -/
def dtparse (fuzzy : Bool) (s : String) : Option PDate :=
  let toks := tokenize s.toList
  let months := toks.filterMap monthOf
  let nums := toks.filterMap numOf
  let bad := toks.any (fun t =>
    (monthOf t).isNone && (numOf t).isNone && !(isJumpTok t))
  if bad && !fuzzy then none
  else
    match months, nums with
    | [m], [a, b] =>
      let pick : Option (Nat × Nat) :=
        if a.2 == 4 && b.2 != 4 then some (a.1, b.1)
        else if b.2 == 4 && a.2 != 4 then some (b.1, a.1)
        else none
      match pick with
      | some (y, d) =>
        if 1 ≤ y && y ≤ 9999 && 1 ≤ d && d ≤ daysInMonth y m then
          some ⟨y, m, d⟩
        else none
      | none => none
    | _, _ => none

/-! ### Model of the structured range pattern

`digest_from_library._parse_date_range` searches the regular expression
`([A-Za-z]{3,9}\.?\s+\d{1,2})(?:\s*-\s*([A-Za-z]{3,9}\.?\s+\d{1,2}))?,?\s*(\d{4})`
with `re.search`.  The matcher below implements exactly this fixed
pattern with Python semantics: leftmost starting position wins, greedy
quantifiers with backtracking, groups 1 and 2 capturing the two
month-day parts and group 3 the year. -/

/-- Greedy backtracking over a repetition count: try `j`, then `j - 1`,
and so on down to `lo`.  Callers guard the lower bound inside `f`. -/
def tryRange (f : Nat → Option α) (lo : Nat) : Nat → Option α
  | 0 => f 0
  | j + 1 =>
    match f (j + 1) with
    | some r => some r
    | none => if lo ≤ j then tryRange f lo j else none

/-- Match `[A-Za-z]{3,9}\.?\s+\d{1,2}` at the head of `cs`, greedily
with backtracking; on success the continuation `k` receives the number
of characters consumed and the remaining input. -/
def matchDatePart (cs : List Char) (k : Nat → List Char → Option α) :
    Option α :=
  let aLen := (cs.takeWhile isAlphaCh).length
  tryRange (fun j =>
    if j < 3 || aLen < j then none
    else
      let r1 := cs.drop j
      let afterDot (used : Nat) (r : List Char) : Option α :=
        let wLen := (r.takeWhile myIsSpace).length
        tryRange (fun w =>
          if w < 1 || wLen < w then none
          else
            let r2 := r.drop w
            let dLen := (r2.takeWhile isDigitCh).length
            tryRange (fun d =>
              if d < 1 || dLen < d then none
              else k (used + w + d) (r2.drop d)) 1 (min 2 dLen)) 1 wLen
      match r1 with
      | '.' :: r1x =>
        match afterDot (j + 1) r1x with
        | some res => some res
        | none => afterDot j r1
      | _ => afterDot j r1) 3 (min 9 aLen)

/-- Match the whole pattern at the head of `cs`, returning the three
captured groups (the second is optional). -/
def matchPatAt (cs : List Char) : Option (String × Option String × String) :=
  matchDatePart cs (fun n1 r1 =>
    let g1 := String.mk (cs.take n1)
    let tailPart (p2 : Option String) (r : List Char) :
        Option (String × Option String × String) :=
      let finish (rf : List Char) : Option (String × Option String × String) :=
        let w := (rf.takeWhile myIsSpace).length
        let r2 := rf.drop w
        let dg := r2.take 4
        if dg.length == 4 && dg.all isDigitCh then some (g1, p2, String.mk dg)
        else none
      match r with
      | ',' :: rx =>
        match finish rx with
        | some res => some res
        | none => finish r
      | _ => finish r
    let wl := (r1.takeWhile myIsSpace).length
    let r1b := r1.drop wl
    let withSecond : Option (String × Option String × String) :=
      match r1b with
      | '-' :: r1c =>
        let wl2 := (r1c.takeWhile myIsSpace).length
        let r1d := r1c.drop wl2
        matchDatePart r1d (fun n2 r2 =>
          tailPart (some (String.mk (r1d.take n2))) r2)
      | _ => none
    match withSecond with
    | some res => some res
    | none => tailPart none r1)

/-- Model of `re.search` for the fixed pattern: try each start
position from the left. -/
def searchPat : List Char → Option (String × Option String × String)
  | [] => matchPatAt []
  | c :: rest =>
    match matchPatAt (c :: rest) with
    | some r => some r
    | none => searchPat rest

/-- Models `re.sub(r"[–—−]", "-", text)`: en dash, em dash and the
minus sign become a plain hyphen. -/
def dashNorm (text : String) : String :=
  String.mk (text.toList.map (fun c =>
    if c = '–' || c = '—' || c = '−' then '-' else c))

/-! ### The two date resolvers of the repository -/

deriving instance DecidableEq for Except

/-- `digest_from_library._parse_date_range` (the resolver of the digest
stage).  `Except.error ()` models an uncaught exception escaping the
function: the structured-match branch calls `dtparser.parse` outside
any `try`, while the single-date fallback catches and returns
`(None, None)`, modelled as `.ok none`. -/
def parse_date_range (text : String) : Except Unit (Option (PDate × PDate)) :=
  if text = "" then .ok none
  else
    let t := dashNorm text
    match searchPat t.toList with
    | some (p1, p2o, y) =>
      match dtparse true (p1 ++ " " ++ y),
            dtparse true (p2o.getD p1 ++ " " ++ y) with
      | some s, some e => .ok (some (s, e))
      | _, _ => .error ()
    | none =>
      match dtparse true t with
      | some d => .ok (some (d, d))
      | none => .ok none

/-- `build_pogo_library.normalize_date` on a string argument (the
resolver of the discovery stage): a strict, non-fuzzy
`dtparser.parse(x).date()` with every exception caught to `None`.
(The branch for arguments that are already `datetime`/`date` values
does not apply to string inputs.) -/
def normalize_date (s : String) : Option PDate :=
  dtparse false s

/-- The property C3 asserts of the code: on every input the digest-time
resolver returns exactly what the discovery-time resolver resolves (a
single date doubled into a degenerate range, or null). -/
def resolversAgree (s : String) : Prop :=
  parse_date_range s =
    (match normalize_date s with
     | some d => .ok (some (d, d))
     | none => .ok none)

example : searchPat "September 10, 2025".toList =
    some ("September 10", none, "2025") := by decide
example : searchPat "September 10 - September 12, 2025".toList =
    some ("September 10", some "September 12", "2025") := by decide
example : searchPat "hello".toList = none := by decide
example : parse_date_range "September 10, 2025" =
    .ok (some (⟨2025, 9, 10⟩, ⟨2025, 9, 10⟩)) := by decide
example : parse_date_range "" = .ok none := by decide
example : parse_date_range "nonsense text" = .ok none := by decide
example : parse_date_range "Sept. 10 – Sept. 12, 2025" =
    .ok (some (⟨2025, 9, 10⟩, ⟨2025, 9, 12⟩)) := by decide

example : dtparse true "September 10 2025" = some ⟨2025, 9, 10⟩ := by decide
example : dtparse true "February 30 2025" = none := by decide
example : dtparse false "September 10, 2025" = some ⟨2025, 9, 10⟩ := by decide
example : dtparse false "September 10 - September 12, 2025" = none := by decide
example : dtparse true "Sept. 10 2025" = some ⟨2025, 9, 10⟩ := by decide
example : dtparse true "" = none := by decide
example : dtparse true "!!!" = none := by decide

/-! ### Slug encoder (`build_pogo_library.safe_slug`) -/

/-- Drop leading and trailing whitespace, `str.strip()`. -/
def stripEnds (l : List Char) : List Char :=
  ((l.dropWhile myIsSpace).reverse.dropWhile myIsSpace).reverse

/-- Worker of `collapseWs`; the flag records whether the previous
character was inside a whitespace run already replaced by a hyphen. -/
def collapseAux : Bool → List Char → List Char
  | _, [] => []
  | inRun, c :: cs =>
    if myIsSpace c then
      if inRun then collapseAux true cs else '-' :: collapseAux true cs
    else c :: collapseAux false cs

/-- Replace every maximal whitespace run by one hyphen,
`re.sub(r"\s+", "-", t)`. -/
def collapseWs (l : List Char) : List Char :=
  collapseAux false l

/-- `build_pogo_library.safe_slug`: strip, lowercase, collapse
whitespace runs to hyphens, delete everything outside `[a-z0-9-]`,
truncate to `maxlen`, and fall back to `"untitled"` when the result is
empty. -/
def safe_slug (text : String) (maxlen : Nat) : String :=
  let t1 := collapseWs ((stripEnds text.toList).map pyLowerChar)
  let t2 := t1.filter isSlugChar
  let t3 := t2.take maxlen
  if t3.isEmpty then "untitled" else String.mk t3

example : safe_slug "Community Day: Solosis" 120 = "community-day-solosis" := by
  decide
example : safe_slug "  Hello   World!  " 120 = "hello-world" := by decide
example : safe_slug "!" 120 = "untitled" := by decide
example : safe_slug "!" 5 = "untitled" := by decide

/-! ### Substring matching and the category classifier -/

/-- `needle` is a leading segment of `hay`. -/
def listStarts : List Char → List Char → Bool
  | _, [] => true
  | [], _ :: _ => false
  | a :: as, b :: bs => a == b && listStarts as bs

/-- `needle` occurs contiguously inside `hay`. -/
def containsSub : List Char → List Char → Bool
  | [], needle => needle.isEmpty
  | c :: rest, needle => listStarts (c :: rest) needle || containsSub rest needle

/-- Python `needle in hay` on strings. -/
def containsStr (hay needle : String) : Bool :=
  containsSub hay.toList needle.toList

/-- The category heuristics of `digest_from_library.parse_html_file`:
case-insensitive substring tests against the title, in the fixed order
of the if/elif chain. -/
def classify_category (title : String) : String :=
  let tl := pyLower title
  if containsStr tl "community day classic" then "CD Classic"
  else if containsStr tl "community day" then "Community Day"
  else if containsStr tl "shadow raid" then "Shadow Raid"
  else if containsStr tl "raid" || containsStr tl "mega" ||
      containsStr tl "legendary" then "Raid/Mega"
  else if containsStr tl "spotlight hour" then "Spotlight"
  else if containsStr tl "research" then "Research"
  else "Event/News"

example : classify_category "Community Day Classic: Bulbasaur" = "CD Classic" := by
  decide
example : classify_category "Shadow Raid Weekend" = "Shadow Raid" := by decide
example : classify_category "Mega Raid Hour" = "Raid/Mega" := by decide
example : classify_category "Solosis Community Day" = "Community Day" := by decide

/-! ### Candidate items and URL deduplication

Both discovery functions end with
`uniq = {}; for p in posts: if p.get("url"): uniq[p["url"]] = p;
return list(uniq.values())` — a Python dict keyed by URL.  A dict keeps
keys in first-insertion order while an assignment to an existing key
replaces the value in place, so the model below is an association list
with in-place update. -/

/-- A discovered candidate item, the dict
`{"title", "date", "url", "source"}` the scripts build. -/
structure Post where
  title : String
  date : String
  url : String
  source : String
deriving DecidableEq

/-- Python dict assignment `m[k] = v`: replace the value in place when
the key exists, append otherwise. -/
def dictUpsert (m : List (String × Post)) (k : String) (v : Post) :
    List (String × Post) :=
  if (m.map Prod.fst).contains k then
    m.map (fun kv => if kv.1 = k then (kv.1, v) else kv)
  else m ++ [(k, v)]

/-- The dict built by the dedup loop: every post with a non-empty URL
is assigned under its URL, in order. -/
def buildUniq (posts : List Post) : List (String × Post) :=
  posts.foldl (fun m p => if p.url = "" then m else dictUpsert m p.url p) []

/-- `list(uniq.values())`. -/
def dedupByUrl (posts : List Post) : List Post :=
  (buildUniq posts).map Prod.snd

/-- The last post of `posts` carrying URL `u` (what a Python dict holds
under key `u` after the loop). -/
def lastWithUrl (posts : List Post) (u : String) : Option Post :=
  posts.reverse.find? (fun p => p.url == u)

/-- `dict.get`-style lookup on the association list. -/
def lookupKV (m : List (String × Post)) (k : String) : Option Post :=
  (m.find? (fun kv => kv.1 == k)).map Prod.snd

/-- Specification device for the order of the dedup output: the
distinct non-empty URLs of the input, each listed at the position of
its first occurrence, given the URLs already seen.  A Python dict
keeps its keys in first-insertion order, so the URLs of
`dedupByUrl posts` must come out equal to `firstOccUrls [] posts`. -/
def firstOccUrls (seen : List String) : List Post → List String
  | [] => []
  | p :: rest =>
    if (p.url == "") || seen.contains p.url then firstOccUrls seen rest
    else p.url :: firstOccUrls (p.url :: seen) rest

/-- `build_pogo_library.discover_niantic_posts`, parameterised by the
outcome of its two phases.  The RSS phase (feedparser) and the listing
phase (requests + BeautifulSoup) are external collaborators; each
appends a list of window-filtered posts to `posts`, feed entries first,
and the function returns the URL-deduplicated values (lines 152-157 of
the source). -/
def discover_niantic_posts (feedPosts listingPosts : List Post) : List Post :=
  dedupByUrl (feedPosts ++ listingPosts)

/-! ### The secondary-source adapter (`discover_leek_posts`) -/

def leekEventsUrl : String := "https://leekduck.com/events/"
def leekCalUrl : String := "https://leekduck.com/calendar/"

/-- The path markers an anchor URL must contain. -/
def leekMarkers : List String :=
  ["/event/", "/events/", "/calendar", "/raid", "/community", "/research",
   "/hour"]

/-- `s` ends with `suf`. -/
def strEndsWith (s suf : String) : Bool :=
  listStarts s.toList.reverse suf.toList.reverse

/-- Models `urlparse(href).netloc`: the host part between `"//"` and
the next `"/"`; empty when the URL has no `"//"`. -/
def netlocOf (s : String) : String :=
  let rec go : List Char → Option (List Char)
    | '/' :: '/' :: rest => some rest
    | _ :: rest => go rest
    | [] => none
  match go s.toList with
  | some r => String.mk (r.takeWhile (fun c => c != '/'))
  | none => ""

/-- Models `url.split("//")[-1]`, the hub-page title: the part after
the last `"//"` (the whole string when there is none). -/
def afterScheme (s : String) : String :=
  let rec go (acc : List Char) : List Char → List Char
    | '/' :: '/' :: rest => go rest rest
    | _ :: rest => go acc rest
    | [] => acc
  String.mk (go s.toList s.toList)

/-- The anchor loop of `discover_leek_posts` on one hub page: each
anchor is a `(visible text, absolute href)` pair (BeautifulSoup
traversal and `urljoin` are external, so anchors arrive already
resolved); `seen` holds hrefs already visited on this page.  An anchor
on the `leekduck.com` host whose URL contains a marker becomes a post
dated at the window start. -/
def leekAnchorPosts (start : PDate) (seen : List String) :
    List (String × String) → List Post
  | [] => []
  | (txt, href) :: rest =>
    if seen.contains href then leekAnchorPosts start seen rest
    else
      let seen2 := href :: seen
      if strEndsWith (netlocOf href) "leekduck.com" &&
          leekMarkers.any (fun k => containsStr href k) then
        { title := if txt = "" then href else txt, date := isoDate start,
          url := href, source := "leekduck" } :: leekAnchorPosts start seen2 rest
      else leekAnchorPosts start seen2 rest

/-- One iteration of the hub-page loop: `fetchPage url = none` models
`fetch` (or the page parse) raising, which the `except: continue`
swallows, producing nothing for this page; on success the hub page
itself is appended first, then the qualifying anchors. -/
def leekPagePosts (fetchPage : String → Option (List (String × String)))
    (start : PDate) (url : String) : List Post :=
  match fetchPage url with
  | none => []
  | some anchors =>
    { title := afterScheme url, date := isoDate start, url := url,
      source := "leekduck" } :: leekAnchorPosts start [] anchors

/-- `build_pogo_library.discover_leek_posts`: the loop over the two hub
pages followed by URL deduplication. -/
def discover_leek_posts (fetchPage : String → Option (List (String × String)))
    (start : PDate) : List Post :=
  dedupByUrl (leekPagePosts fetchPage start leekEventsUrl ++
    leekPagePosts fetchPage start leekCalUrl)

example : afterScheme leekEventsUrl = "leekduck.com/events/" := by decide
example : netlocOf "https://leekduck.com/events/x" = "leekduck.com" := by decide
example : netlocOf "mailto:x" = "" := by decide
example :
    discover_niantic_posts [⟨"A", "2025-09-10", "u", "niantic"⟩]
      [⟨"B", "2025-09-11", "u", "niantic"⟩] =
    [⟨"B", "2025-09-11", "u", "niantic"⟩] := by decide
example :
    discover_leek_posts (fun u =>
        if u = leekEventsUrl then some [("E1", "https://leekduck.com/events/e1")]
        else none) ⟨2025, 9, 1⟩ =
    [⟨"leekduck.com/events/", "2025-09-01", leekEventsUrl, "leekduck"⟩,
     ⟨"E1", "2025-09-01", "https://leekduck.com/events/e1", "leekduck"⟩] := by
  decide

/-! ### The persistence loop (`save_posts` inside `main`) -/

/-- An archived entry: a candidate extended with the fields the loop
adds, `p["file"]` and `p["sha256"]`. -/
structure ArchivedPost where
  title : String
  date : String
  url : String
  source : String
  file : String
  sha256 : String
deriving DecidableEq

/-- `save_posts(posts, target_dir)`: for each candidate in order, skip
it when its URL is empty or when the fetch raises (`fetchHtml url =
none`); otherwise name the file from the date (today when empty) and
the slug of the title (URL when empty), record the content hash, and
append.  `fetchHtml` models the `fetch` collaborator and `sha` models
`hash_content` (`hashlib.sha256` over the page text); writing the file
itself is a side effect outside the returned value. -/
def save_posts (fetchHtml : String → Option String) (sha : String → String)
    (today : String) : List Post → List ArchivedPost
  | [] => []
  | p :: rest =>
    if p.url = "" then save_posts fetchHtml sha today rest
    else
      match fetchHtml p.url with
      | none => save_posts fetchHtml sha today rest
      | some html =>
        let d := if p.date = "" then today else p.date
        let slug := safe_slug (if p.title = "" then p.url else p.title) 120
        { title := p.title, date := p.date, url := p.url, source := p.source,
          file := d ++ "_" ++ slug ++ ".html", sha256 := sha html } ::
          save_posts fetchHtml sha today rest

example :
    save_posts (fun u => if u = "https://x/a" then some "<html>" else none)
      (fun _ => "h") "2025-09-30"
      [⟨"Community Day: Solosis", "2025-09-10", "https://x/a", "niantic"⟩,
       ⟨"Gone", "2025-09-11", "https://x/b", "niantic"⟩] =
    [⟨"Community Day: Solosis", "2025-09-10", "https://x/a", "niantic",
      "2025-09-10_community-day-solosis.html", "h"⟩] := by decide

/-! ### The atomic index write (`write_json_atomic`)

The function serialises to `path + ".tmp"` and then calls
`os.replace(tmp, path)`.  The filesystem is modelled as a map from
paths to file contents, with the two primitive operations the function
performs; a crash is executing only a prefix of the operation list. -/

/-- The filesystem: each path holds a file content or nothing. -/
def Fs : Type := String → Option String

/-- The primitive filesystem operations `write_json_atomic` issues. -/
inductive FsOp where
  | write (path content : String)
  | rename (src dst : String)

/-- Effect of one operation: a write creates or replaces the file; a
rename (`os.replace`) moves the source over the destination
atomically. -/
def applyOp (fs : Fs) : FsOp → Fs
  | .write p c => fun q => if q = p then some c else fs q
  | .rename src dst =>
    fun q => if q = dst then fs src else if q = src then none else fs q

/-- Execute a list of operations in order. -/
def runOps (fs : Fs) (ops : List FsOp) : Fs :=
  ops.foldl applyOp fs

/-- `build_pogo_library.write_json_atomic(path, obj)` as the operation
sequence it performs: write the serialised payload (`json.dump` is
external, so the serialised text arrives as `payload`) to the sibling
temporary file, then atomically rename it over the target. -/
def write_json_atomic (path payload : String) : List FsOp :=
  [FsOp.write (path ++ ".tmp") payload,
   FsOp.rename (path ++ ".tmp") path]

/-! ### The calendar export (`digest_from_library.write_ics`) -/

/-- A digest row, restricted to the columns `write_ics` reads. -/
structure DigestRow where
  startDate : String
  endDate : String
  eventName : String
  category : String
deriving DecidableEq

/-- One VEVENT block as its five emitted lines carry it. -/
structure VEvent where
  uid : String
  dtstart : String
  dtend : String
  summary : String
  desc : String
deriving DecidableEq

/-- Models `datetime.strptime(d, "%Y-%m-%d").strftime("%Y%m%d")`:
split on hyphens, require three numeric components forming a valid
calendar date, re-emit zero-padded; `none` models `strptime`
raising. -/
def dtfmt (s : String) : Option String :=
  let rec split (cur : List Char) : List Char → List (List Char)
    | [] => [cur.reverse]
    | '-' :: rest => cur.reverse :: split [] rest
    | c :: rest => split (c :: cur) rest
  match split [] s.toList with
  | [ys, ms, ds] =>
    if ys.isEmpty || !(ys.all isDigitCh) || ms.isEmpty || !(ms.all isDigitCh)
        || ds.isEmpty || !(ds.all isDigitCh) then none
    else
      let y := digitsVal ys
      let m := digitsVal ms
      let d := digitsVal ds
      if 1 ≤ y && y ≤ 9999 && 1 ≤ m && m ≤ 12 && 1 ≤ d &&
          d ≤ daysInMonth y m then
        some (padNum 4 y ++ padNum 2 m ++ padNum 2 d)
      else none
  | _ => none

/-- First `n` characters of a string, Python `s[:n]`. -/
def strTake (s : String) (n : Nat) : String :=
  String.mk (s.toList.take n)

/-- Lexicographic order on character lists by code point, as Python
compares strings. -/
def listLtB : List Char → List Char → Bool
  | [], [] => false
  | [], _ :: _ => true
  | _ :: _, [] => false
  | a :: as, b :: bs =>
    if a.toNat < b.toNat then true
    else if a.toNat == b.toNat then listLtB as bs
    else false

/-- Python `a < b` on strings. -/
def strLtB (a b : String) : Bool :=
  listLtB a.toList b.toList

/-- The VEVENT a non-skipped row emits: format the start, format the
end (falling back to the start when the End Date cell is empty), and
clamp the end up to the start when it compares smaller; `none` models
`strptime` raising on either cell.  `uidOf` models the Python
`hash`-based UID string. -/
def emitRow (uidOf : String → String → String) (r : DigestRow) :
    Option VEvent :=
  match dtfmt r.startDate,
        dtfmt (if r.endDate = "" then r.startDate else r.endDate) with
  | some s, some e0 =>
    let e := if strLtB e0 s then s else e0
    some ⟨uidOf r.eventName r.startDate, s, e, r.eventName,
      strTake r.category 200⟩
  | _, _ => none

/-- `digest_from_library.write_ics`, as the sequence of VEVENT blocks
written between the calendar header and footer: rows with an empty
Start Date are skipped before any parsing; any row whose date cells
fail to parse raises, aborting the export (`none`). -/
def write_ics (uidOf : String → String → String) :
    List DigestRow → Option (List VEvent)
  | [] => some []
  | r :: rest =>
    if r.startDate = "" then write_ics uidOf rest
    else
      match emitRow uidOf r with
      | none => none
      | some ev => (write_ics uidOf rest).map (ev :: ·)

example : dtfmt "2025-09-10" = some "20250910" := by decide
example : dtfmt "2025-02-30" = none := by decide
example : dtfmt "" = none := by decide
example :
    write_ics (fun n _ => n)
      [⟨"2025-09-10", "", "A", "CD"⟩, ⟨"", "2025-09-12", "B", "x"⟩,
       ⟨"2025-09-12", "2025-09-10", "C", "y"⟩] =
    some [⟨"A", "20250910", "20250910", "A", "CD"⟩,
      ⟨"C", "20250912", "20250912", "C", "y"⟩] := by decide

/-! ### Helper lemmas -/

theorem listLtB_self (l : List Char) : listLtB l l = false := by
  induction l with
  | nil => rfl
  | cons a as ih => simp [listLtB, ih]

theorem strLtB_self (s : String) : strLtB s s = false :=
  listLtB_self s.toList

theorem path_ne_tmp (path : String) : path ≠ path ++ ".tmp" := by
  intro h
  have hl := congrArg String.length h
  rw [String.length_append] at hl
  have h4 : (".tmp" : String).length = 4 := rfl
  omega

theorem emitRow_no_lt (uidOf : String → String → String) (r : DigestRow)
    (ev : VEvent) (h : emitRow uidOf r = some ev) :
    strLtB ev.dtend ev.dtstart = false := by
  unfold emitRow at h
  split at h
  next s e0 hs he =>
    by_cases hlt : strLtB e0 s = true
    · simp only [hlt, if_true] at h
      obtain rfl := Option.some.inj h
      exact strLtB_self s
    · rw [Bool.not_eq_true] at hlt
      simp only [hlt, Bool.false_eq_true, if_false] at h
      obtain rfl := Option.some.inj h
      exact hlt
  next => exact absurd h (by simp)

/-! ### Claim C2 -/

/-- C2: the claim that `_parse_date_range` never raises for any string
input is violated by the code: on an input whose structured pattern
matches but names an invalid calendar date, the structured branch calls
`dtparser.parse` outside any `try`/`except` and the `ValueError`
escapes.  The theorem evaluates the embedded function at the failing
input `"February 30, 2025"`: the result is the raising outcome, not
null. -/
theorem c2_invalid_date_raises :
    parse_date_range "February 30, 2025" = .error () := by decide

/-! ### Claim C3 -/

/-- C3 counterexample: the discovery-time resolver (`normalize_date`)
and the digest-time resolver (`_parse_date_range`) are not the same
function: on the range input `"September 10 - September 12, 2025"`
the former returns null while the latter returns the two-date range. -/
theorem c3_counterexample :
    ¬ resolversAgree "September 10 - September 12, 2025" := by
  unfold resolversAgree
  decide

/-- C3 (amended): the two call sites resolve dates with two distinct
functions that diverge: on the range input
`"September 10 - September 12, 2025"` the discovery-time filter yields
null while the digest-time parser yields the range; on a plain
single-date input such as `"September 10, 2025"` the two agree. -/
theorem c3_two_resolvers_diverge :
    normalize_date "September 10 - September 12, 2025" = none ∧
    parse_date_range "September 10 - September 12, 2025" =
      .ok (some (⟨2025, 9, 10⟩, ⟨2025, 9, 12⟩)) ∧
    resolversAgree "September 10, 2025" := by
  refine ⟨by decide, by decide, ?_⟩
  unfold resolversAgree
  decide

/-! ### Claim C4 -/

/-- C4 counterexample: an input matching the two-date pattern with the
dates given in reversed order produces a range with `start > end`, so
the invariant `start ≤ end` does not hold of every non-null result. -/
theorem c4_counterexample :
    parse_date_range "September 12 - September 10, 2025" =
      .ok (some (⟨2025, 9, 12⟩, ⟨2025, 9, 10⟩)) ∧
    ¬ (PDate.key ⟨2025, 9, 12⟩ ≤ PDate.key ⟨2025, 9, 10⟩) := by decide

/-- C4 (amended): every non-null result of the resolver either has
`start = end` (the single-date fallback, or a two-date match whose
second group is absent or equal) or comes from a two-date structured
match, in which case start and end are the first- and second-named
dates in textual order — with no reordering, so `start ≤ end` holds
exactly when the first-named date is not after the second. -/
theorem c4_range_structure (text : String) (s e : PDate)
    (h : parse_date_range text = .ok (some (s, e))) :
    s = e ∨ ∃ p1 p2 y, searchPat (dashNorm text).toList = some (p1, some p2, y) ∧
      dtparse true (p1 ++ " " ++ y) = some s ∧
      dtparse true (p2 ++ " " ++ y) = some e := by
  unfold parse_date_range at h
  split at h
  · exact absurd h (by simp)
  · dsimp only at h
    split at h
    next p1 p2o y hsp =>
      split at h
      next ds de h1 h2 =>
        obtain ⟨rfl, rfl⟩ : ds = s ∧ de = e := by
          simpa using h
        cases p2o with
        | none =>
          left
          simp only [Option.getD_none] at h2
          rw [h1] at h2
          exact Option.some.inj h2
        | some p2 =>
          right
          exact ⟨p1, p2, y, hsp, h1, by simpa using h2⟩
      next => exact absurd h (by simp)
    next hsp =>
      split at h
      next d hd =>
        obtain ⟨rfl, rfl⟩ : d = s ∧ d = e := by simpa using h
        exact Or.inl rfl
      next => exact absurd h (by simp)

/-- C4 witness: the resolver applied to the single-date input
`"September 10, 2025"`, where start and end coincide. -/
theorem c4_range_structure_witness :
    (⟨2025, 9, 10⟩ : PDate) = ⟨2025, 9, 10⟩ ∨
    ∃ p1 p2 y, searchPat (dashNorm "September 10, 2025").toList =
      some (p1, some p2, y) ∧
      dtparse true (p1 ++ " " ++ y) = some ⟨2025, 9, 10⟩ ∧
      dtparse true (p2 ++ " " ++ y) = some ⟨2025, 9, 10⟩ :=
  c4_range_structure "September 10, 2025" ⟨2025, 9, 10⟩ ⟨2025, 9, 10⟩
    (by decide)

/-! ### Claim C5 -/

/-- C5: the index write is atomic.  Executing any prefix of the
operations of `write_json_atomic` that stops before the rename leaves
the target path exactly as it was (so a crash after the temporary file
is written preserves the previous index, and no reader of the target
path ever sees a partial state); executing both operations installs
the full serialised payload. -/
theorem c5_atomic_write (fs : Fs) (path payload : String) (k : Nat)
    (hk : k ≤ 2) :
    (k < 2 → runOps fs ((write_json_atomic path payload).take k) path
      = fs path) ∧
    (k = 2 → runOps fs ((write_json_atomic path payload).take k) path
      = some payload) := by
  have hne : path ≠ path ++ ".tmp" := path_ne_tmp path
  interval_cases k
  · exact ⟨fun _ => rfl, by omega⟩
  · refine ⟨fun _ => ?_, by omega⟩
    simp [write_json_atomic, runOps, applyOp, hne]
  · refine ⟨by omega, fun _ => ?_⟩
    simp [write_json_atomic, runOps, applyOp]

/-- C5 witness: at a concrete filesystem, target and payload, a crash
after the temporary-file write (prefix of length 1) leaves the target
unchanged. -/
theorem c5_atomic_write_witness :
    runOps (fun _ => none)
      ((write_json_atomic "library_index.json" "x").take 1)
      "library_index.json" = none :=
  (c5_atomic_write (fun _ => none) "library_index.json" "x" 1
    (by omega)).1 (by omega)

/-! ### Dict semantics: lemmas about the URL dedup -/

theorem lookupKV_replace (k : String) (v : Post) :
    ∀ (m : List (String × Post)) (k' : String),
    lookupKV (m.map (fun kv => if kv.1 = k then (kv.1, v) else kv)) k' =
      if k' = k then (lookupKV m k).map (fun _ => v) else lookupKV m k' := by
  intro m
  induction m with
  | nil => intro k'; by_cases h : k' = k <;> simp [lookupKV, h]
  | cons a rest ih =>
    intro k'
    by_cases hak : a.1 = k <;> by_cases hk : k' = k <;>
      by_cases hak' : a.1 = k' <;>
        simp_all [lookupKV, List.find?_cons, ih k']

theorem lookupKV_append_single (m : List (String × Post)) (k : String)
    (v : Post) (k' : String) :
    lookupKV (m ++ [(k, v)]) k' =
      (lookupKV m k').or (if k' = k then some v else none) := by
  rw [lookupKV, List.find?_append]
  cases h : m.find? (fun kv => kv.1 == k') with
  | some a => simp [lookupKV, h]
  | none =>
    by_cases hk : k' = k
    · subst hk
      simp [lookupKV, h, List.find?]
    · have hb : (k == k') = false := by
        simp only [beq_eq_false_iff_ne, ne_eq]
        exact fun hh => hk hh.symm
      simp [lookupKV, h, List.find?, hb, hk]

theorem lookupKV_eq_none_of_not_contains (m : List (String × Post))
    (k : String) (h : ¬ ((m.map Prod.fst).contains k = true)) :
    lookupKV m k = none := by
  rw [lookupKV, Option.map_eq_none', List.find?_eq_none]
  intro kv hkv hbeq
  rw [beq_iff_eq] at hbeq
  exact h (List.elem_iff.mpr (hbeq ▸ List.mem_map_of_mem Prod.fst hkv))

theorem lookupKV_isSome_of_contains (m : List (String × Post)) (k : String)
    (h : (m.map Prod.fst).contains k = true) :
    ∃ w, lookupKV m k = some w := by
  have hmem : k ∈ m.map Prod.fst := List.elem_iff.mp h
  obtain ⟨kv, hkv, hfst⟩ := List.mem_map.mp hmem
  have : (m.find? (fun kv => kv.1 == k)).isSome = true :=
    List.find?_isSome.mpr ⟨kv, hkv, by simp [hfst]⟩
  obtain ⟨a, ha⟩ := Option.isSome_iff_exists.mp this
  exact ⟨a.2, by rw [lookupKV, ha]; rfl⟩

/-- Python dict assignment, seen through lookup: the assigned key now
holds the new value and every other key is untouched. -/
theorem lookupKV_upsert (m : List (String × Post)) (k : String) (v : Post)
    (k' : String) :
    lookupKV (dictUpsert m k v) k' = if k' = k then some v else lookupKV m k' := by
  unfold dictUpsert
  by_cases hc : ((m.map Prod.fst).contains k = true)
  · rw [if_pos hc, lookupKV_replace]
    by_cases hk : k' = k
    · rw [if_pos hk, if_pos hk]
      obtain ⟨w, hw⟩ := lookupKV_isSome_of_contains m k hc
      rw [hw]
      rfl
    · rw [if_neg hk, if_neg hk]
  · rw [if_neg hc, lookupKV_append_single]
    by_cases hk : k' = k
    · rw [if_pos hk, if_pos hk]
      rw [hk, lookupKV_eq_none_of_not_contains m k hc, Option.none_or]
    · rw [if_neg hk, if_neg hk, Option.or_none]

theorem dictUpsert_inv (m : List (String × Post)) (k : String) (v : Post)
    (hm : ∀ kv ∈ m, kv.2.url = kv.1 ∧ kv.1 ≠ "") (hv : v.url = k)
    (hk : k ≠ "") :
    ∀ kv ∈ dictUpsert m k v, kv.2.url = kv.1 ∧ kv.1 ≠ "" := by
  unfold dictUpsert
  split
  · intro kv hkv
    obtain ⟨kv0, h0, rfl⟩ := List.mem_map.mp hkv
    by_cases h : kv0.1 = k
    · simp only [if_pos h]
      exact ⟨by rw [hv, h], h ▸ hk⟩
    · simp only [if_neg h]
      exact hm kv0 h0
  · intro kv hkv
    rcases List.mem_append.mp hkv with h | h
    · exact hm kv h
    · rw [List.mem_singleton] at h
      subst h
      exact ⟨hv, hk⟩

theorem dictUpsert_keys_nodup (m : List (String × Post)) (k : String)
    (v : Post) (h : (m.map Prod.fst).Nodup) :
    ((dictUpsert m k v).map Prod.fst).Nodup := by
  unfold dictUpsert
  split
  next hc =>
    have hsame : (m.map (fun kv => if kv.1 = k then (kv.1, v) else kv)).map
        Prod.fst = m.map Prod.fst := by
      rw [List.map_map]
      exact List.map_congr_left
        (fun kv _ => by by_cases hkv : kv.1 = k <;> simp [hkv])
    rw [hsame]
    exact h
  next hc =>
    rw [List.map_append, List.nodup_append]
    refine ⟨h, by simp, ?_⟩
    intro a ha hb
    simp only [List.map_cons, List.map_nil, List.mem_singleton] at hb
    subst hb
    exact hc (List.elem_iff.mpr ha)

theorem lookupKV_mem (m : List (String × Post)) (k' : String) (w : Post)
    (h : lookupKV m k' = some w) : ∃ kv ∈ m, kv.1 = k' ∧ kv.2 = w := by
  rw [lookupKV] at h
  obtain ⟨kv, hfind, hmap⟩ := Option.map_eq_some'.mp h
  exact ⟨kv, List.mem_of_find?_eq_some hfind,
    by simpa using List.find?_some hfind, hmap⟩

theorem mem_lookupKV (m : List (String × Post)) (kv : String × Post)
    (hnd : (m.map Prod.fst).Nodup) (h : kv ∈ m) :
    lookupKV m kv.1 = some kv.2 := by
  induction m with
  | nil => cases h
  | cons a rest ih =>
    rw [List.map_cons, List.nodup_cons] at hnd
    rcases List.mem_cons.mp h with rfl | hm
    · rw [lookupKV, List.find?_cons_of_pos _ (by simp)]
      rfl
    · have hne : ¬ ((a.1 == kv.1) = true) := by
        simp only [beq_iff_eq]
        intro hh
        exact hnd.1 (hh ▸ List.mem_map_of_mem Prod.fst hm)
      rw [lookupKV,
        @List.find?_cons_of_neg _ (fun kv2 => kv2.1 == kv.1) a rest hne]
      exact ih hnd.2 hm

/-- The dict after the dedup loop, seen through lookup: a key holds
the last post of the input that carries it as URL. -/
theorem buildUniq_lookup (k : String) (hk : k ≠ "") :
    ∀ (posts : List Post) (m : List (String × Post)),
    lookupKV (posts.foldl
      (fun m p => if p.url = "" then m else dictUpsert m p.url p) m) k =
      (lastWithUrl posts k).or (lookupKV m k) := by
  intro posts
  induction posts with
  | nil =>
    intro m
    simp [lastWithUrl]
  | cons p rest ih =>
    intro m
    simp only [List.foldl_cons]
    rw [ih]
    have hlast : lastWithUrl (p :: rest) k =
        (lastWithUrl rest k).or (if p.url == k then some p else none) := by
      rw [lastWithUrl, List.reverse_cons, List.find?_append, lastWithUrl]
      congr 1
      cases hb : p.url == k <;> simp [List.find?, hb]
    rw [hlast, Option.or_assoc]
    congr 1
    by_cases hu : p.url = ""
    · rw [if_pos hu]
      have hb : (p.url == k) = false := by
        simp only [beq_eq_false_iff_ne, ne_eq, hu]
        exact fun hh => hk hh.symm
      rw [hb]
      simp
    · rw [if_neg hu, lookupKV_upsert]
      by_cases hpk : p.url = k
      · rw [if_pos (by rw [hpk]), show (p.url == k) = true from by simp [hpk]]
        rfl
      · rw [if_neg (fun hh => hpk hh.symm),
          show (p.url == k) = false from by simp [hpk]]
        simp

/-- Invariants of the dict: values carry their key as URL, keys are
non-empty, and keys never repeat. -/
theorem buildUniq_inv (posts : List Post) :
    (∀ kv ∈ buildUniq posts, kv.2.url = kv.1 ∧ kv.1 ≠ "") ∧
    ((buildUniq posts).map Prod.fst).Nodup := by
  suffices h : ∀ m : List (String × Post),
      (∀ kv ∈ m, kv.2.url = kv.1 ∧ kv.1 ≠ "") → (m.map Prod.fst).Nodup →
      (∀ kv ∈ posts.foldl
        (fun m p => if p.url = "" then m else dictUpsert m p.url p) m,
        kv.2.url = kv.1 ∧ kv.1 ≠ "") ∧
      ((posts.foldl
        (fun m p => if p.url = "" then m else dictUpsert m p.url p) m).map
        Prod.fst).Nodup by
    exact h [] (by simp) (by simp)
  induction posts with
  | nil => intro m h1 h2; exact ⟨h1, h2⟩
  | cons p rest ih =>
    intro m h1 h2
    simp only [List.foldl_cons]
    by_cases hu : p.url = ""
    · rw [if_pos hu]
      exact ih m h1 h2
    · rw [if_neg hu]
      exact ih _ (dictUpsert_inv m p.url p h1 rfl hu)
        (dictUpsert_keys_nodup m p.url p h2)

/-- Membership in the deduplicated output: exactly the last occurrence
of each non-empty URL. -/
theorem mem_dedupByUrl (posts : List Post) (p : Post) :
    p ∈ dedupByUrl posts ↔ (p.url ≠ "" ∧ lastWithUrl posts p.url = some p) := by
  constructor
  · intro hp
    obtain ⟨kv, hkv, hsnd⟩ := List.mem_map.mp hp
    obtain ⟨h1, h2⟩ := (buildUniq_inv posts).1 kv hkv
    have hurl : kv.1 = p.url := by rw [← hsnd, h1]
    have hnep : p.url ≠ "" := hurl ▸ h2
    refine ⟨hnep, ?_⟩
    have hl := mem_lookupKV (buildUniq posts) kv (buildUniq_inv posts).2 hkv
    rw [hurl, hsnd] at hl
    have hfold := buildUniq_lookup p.url hnep posts []
    rw [show lookupKV [] p.url = none from rfl, Option.or_none] at hfold
    rw [← hfold]
    exact hl
  · intro hcond
    have hlk : lookupKV (buildUniq posts) p.url = some p := by
      have hfold := buildUniq_lookup p.url hcond.1 posts []
      rw [show lookupKV [] p.url = none from rfl, Option.or_none] at hfold
      rw [buildUniq, hfold, hcond.2]
    obtain ⟨kv, hkv, _, h2⟩ := lookupKV_mem _ _ _ hlk
    exact List.mem_map.mpr ⟨kv, hkv, h2⟩

theorem dictUpsert_keys_of_contains (m : List (String × Post)) (k : String)
    (v : Post) (hc : (m.map Prod.fst).contains k = true) :
    (dictUpsert m k v).map Prod.fst = m.map Prod.fst := by
  unfold dictUpsert
  rw [if_pos hc, List.map_map]
  exact List.map_congr_left
    (fun kv _ => by by_cases hkv : kv.1 = k <;> simp [hkv])

theorem dictUpsert_keys_of_not_contains (m : List (String × Post))
    (k : String) (v : Post) (hc : ¬ ((m.map Prod.fst).contains k = true)) :
    (dictUpsert m k v).map Prod.fst = m.map Prod.fst ++ [k] := by
  unfold dictUpsert
  rw [if_neg hc, List.map_append]
  rfl

/-- `firstOccUrls` only consults the seen list through membership, so
two seen lists with the same elements give the same output. -/
theorem firstOccUrls_congr (l : List Post) :
    ∀ s1 s2 : List String, (∀ u, u ∈ s1 ↔ u ∈ s2) →
    firstOccUrls s1 l = firstOccUrls s2 l := by
  induction l with
  | nil => intro s1 s2 _; rfl
  | cons p rest ih =>
    intro s1 s2 h
    have hc : s1.contains p.url = s2.contains p.url := by
      rw [Bool.eq_iff_iff]
      constructor <;> intro hx
      · exact List.elem_iff.mpr ((h _).mp (List.elem_iff.mp hx))
      · exact List.elem_iff.mpr ((h _).mpr (List.elem_iff.mp hx))
    simp only [firstOccUrls, hc]
    split
    · exact ih s1 s2 h
    · rw [ih (p.url :: s1) (p.url :: s2)
        (fun u => by simp only [List.mem_cons, h u])]

/-- The keys of the dict built by the dedup loop extend the keys of
the starting dict with the first occurrences of the remaining URLs, in
input order. -/
theorem buildUniq_keys (posts : List Post) :
    ∀ m : List (String × Post),
    (posts.foldl
      (fun m p => if p.url = "" then m else dictUpsert m p.url p) m).map
      Prod.fst = m.map Prod.fst ++ firstOccUrls (m.map Prod.fst) posts := by
  induction posts with
  | nil => intro m; simp [firstOccUrls]
  | cons p rest ih =>
    intro m
    simp only [List.foldl_cons, firstOccUrls]
    by_cases hu : p.url = ""
    · have hcond : ((p.url == "") || (m.map Prod.fst).contains p.url) = true := by
        simp [hu]
      rw [if_pos hu, if_pos hcond]
      exact ih m
    · rw [if_neg hu]
      by_cases hc : (m.map Prod.fst).contains p.url = true
      · have hcond : ((p.url == "") ||
            (m.map Prod.fst).contains p.url) = true := by
          rw [hc, Bool.or_true]
        rw [if_pos hcond, ih (dictUpsert m p.url p),
          dictUpsert_keys_of_contains m p.url p hc]
      · have hcf : (m.map Prod.fst).contains p.url = false := by
          rwa [Bool.not_eq_true] at hc
        have hcond : ((p.url == "") ||
            (m.map Prod.fst).contains p.url) = false := by
          rw [hcf, Bool.or_false]
          simp [hu]
        rw [if_neg (by rw [hcond]; simp), ih (dictUpsert m p.url p),
          dictUpsert_keys_of_not_contains m p.url p hc, List.append_assoc,
          List.singleton_append]
        congr 2
        exact firstOccUrls_congr rest _ _
          (fun u => by
            simp only [List.mem_append, List.mem_cons, List.mem_singleton]
            tauto)

/-- The URLs of the deduplicated output, in order: the distinct
non-empty URLs of the input, each at the position of its first
occurrence. -/
theorem dedup_urls_first_occurrence (posts : List Post) :
    (dedupByUrl posts).map Post.url = firstOccUrls [] posts := by
  have hsame : (dedupByUrl posts).map Post.url =
      (buildUniq posts).map Prod.fst := by
    rw [dedupByUrl, List.map_map]
    exact List.map_congr_left (fun kv hkv => ((buildUniq_inv posts).1 kv hkv).1)
  rw [hsame]
  have hk := buildUniq_keys posts []
  simp only [List.map_nil, List.nil_append] at hk
  unfold buildUniq
  exact hk

theorem dedup_urls_nodup (posts : List Post) :
    ((dedupByUrl posts).map Post.url).Nodup := by
  have hsame : (dedupByUrl posts).map Post.url =
      (buildUniq posts).map Prod.fst := by
    rw [dedupByUrl, List.map_map]
    exact List.map_congr_left (fun kv hkv => ((buildUniq_inv posts).1 kv hkv).1)
  rw [hsame]
  exact (buildUniq_inv posts).2

/-! ### Claim C1 -/

example :
    (discover_niantic_posts
      [⟨"A", "d1", "u1", "niantic"⟩, ⟨"B", "d2", "u2", "niantic"⟩]
      [⟨"C", "d3", "u1", "niantic"⟩, ⟨"D", "d4", "u3", "niantic"⟩]).map
      Post.url = ["u1", "u2", "u3"] := by decide
example :
    firstOccUrls []
      ([⟨"A", "d1", "u1", "niantic"⟩, ⟨"B", "d2", "u2", "niantic"⟩] ++
       [⟨"C", "d3", "u1", "niantic"⟩, ⟨"D", "d4", "u3", "niantic"⟩]) =
      ["u1", "u2", "u3"] := by decide

/-- C1 counterexample: when the feed phase and the listing phase both
produce a candidate with the same URL, the deduplicated result keeps
the listing-phase entry, not the feed-phase one: a dict assignment
overwrites the value already stored under the key. -/
theorem c1_counterexample :
    discover_niantic_posts [⟨"A", "2025-09-10", "u", "niantic"⟩]
      [⟨"B", "2025-09-11", "u", "niantic"⟩] =
      [⟨"B", "2025-09-11", "u", "niantic"⟩] ∧
    (⟨"B", "2025-09-11", "u", "niantic"⟩ : Post) ≠
      ⟨"A", "2025-09-10", "u", "niantic"⟩ := by decide

/-- C1 (amended): the deduplicated result of the primary-source
adapter contains exactly one entry per distinct URL (its URLs are
pairwise distinct), its URLs are ordered by first occurrence in
feed-then-listing order (`firstOccUrls`), and the entry kept for a
URL is the last occurrence in that order — so when both phases produce
the same URL, the kept entry is the listing-phase one (placed at the
position of the first occurrence), not the feed-phase one. -/
theorem c1_dedup_keeps_last (feed listing : List Post) :
    ((discover_niantic_posts feed listing).map Post.url).Nodup ∧
    (discover_niantic_posts feed listing).map Post.url =
      firstOccUrls [] (feed ++ listing) ∧
    ∀ p : Post, p ∈ discover_niantic_posts feed listing ↔
      (p.url ≠ "" ∧ lastWithUrl (feed ++ listing) p.url = some p) :=
  ⟨dedup_urls_nodup _, dedup_urls_first_occurrence _,
    fun p => mem_dedupByUrl _ p⟩

/-! ### Claim C6 -/

theorem exists_last_of_mem (posts : List Post) (u : String)
    (h : ∃ q ∈ posts, q.url = u) :
    ∃ p ∈ posts, lastWithUrl posts u = some p ∧ p.url = u := by
  have hsome : (posts.reverse.find? (fun p => p.url == u)).isSome = true := by
    rw [List.find?_isSome]
    obtain ⟨q, hq, hu⟩ := h
    exact ⟨q, List.mem_reverse.mpr hq, by simp [hu]⟩
  obtain ⟨p, hp⟩ := Option.isSome_iff_exists.mp hsome
  exact ⟨p, List.mem_reverse.mp (List.mem_of_find?_eq_some hp), hp,
    by simpa using List.find?_some hp⟩

theorem leekAnchor_dates (start : PDate) :
    ∀ (anchors : List (String × String)) (seen : List String) (p : Post),
    p ∈ leekAnchorPosts start seen anchors → p.date = isoDate start := by
  intro anchors
  induction anchors with
  | nil => intro seen p hp; cases hp
  | cons a rest ih =>
    intro seen p hp
    rw [leekAnchorPosts] at hp
    split at hp
    · exact ih seen p hp
    · split at hp
      · rcases List.mem_cons.mp hp with rfl | hm
        · rfl
        · exact ih _ p hm
      · exact ih _ p hp

theorem leekPage_dates (fetchPage : String → Option (List (String × String)))
    (start : PDate) (url : String) (p : Post)
    (hp : p ∈ leekPagePosts fetchPage start url) : p.date = isoDate start := by
  cases hfp : fetchPage url with
  | none => rw [leekPagePosts, hfp] at hp; cases hp
  | some anchors =>
    rw [leekPagePosts, hfp] at hp
    rcases List.mem_cons.mp hp with rfl | hm
    · rfl
    · exact leekAnchor_dates start anchors [] p hm

/-- C6 counterexample: when the fetch of the hub pages raises, the
`except: continue` skips the whole page body — including the
unconditional-looking hub append — so the result contains neither hub
URL: the adapter does not always include them. -/
theorem c6_counterexample :
    (discover_leek_posts (fun _ => none) ⟨2025, 9, 1⟩).any
      (fun p => p.url == leekEventsUrl) = false ∧
    (discover_leek_posts (fun _ => none) ⟨2025, 9, 1⟩).any
      (fun p => p.url == leekCalUrl) = false := by decide

/-- C6 (amended): for every date window and every fetch outcome, each
of the two fixed hub-page URLs whose page fetch succeeds contributes a
candidate with that URL and with date equal to the window start; when
a hub fetch raises, that page yields nothing (as the counterexample
shows). -/
theorem c6_hub_pages (fetchPage : String → Option (List (String × String)))
    (start : PDate) :
    ((fetchPage leekEventsUrl).isSome = true →
      ∃ p, p ∈ discover_leek_posts fetchPage start ∧ p.url = leekEventsUrl ∧
        p.date = isoDate start) ∧
    ((fetchPage leekCalUrl).isSome = true →
      ∃ p, p ∈ discover_leek_posts fetchPage start ∧ p.url = leekCalUrl ∧
        p.date = isoDate start) := by
  constructor
  · intro h
    obtain ⟨anchors, ha⟩ := Option.isSome_iff_exists.mp h
    have hhub : (⟨afterScheme leekEventsUrl, isoDate start, leekEventsUrl,
        "leekduck"⟩ : Post) ∈ leekPagePosts fetchPage start leekEventsUrl ++
        leekPagePosts fetchPage start leekCalUrl := by
      apply List.mem_append_left
      rw [leekPagePosts, ha]
      exact List.mem_cons_self _ _
    obtain ⟨p, hpmem, hplast, hpurl⟩ := exists_last_of_mem _ leekEventsUrl
      ⟨_, hhub, rfl⟩
    refine ⟨p, ?_, hpurl, ?_⟩
    · rw [discover_leek_posts]
      exact (mem_dedupByUrl _ p).mpr
        ⟨by rw [hpurl]; decide, by rw [hpurl]; exact hplast⟩
    · rcases List.mem_append.mp hpmem with hm | hm
      · exact leekPage_dates fetchPage start leekEventsUrl p hm
      · exact leekPage_dates fetchPage start leekCalUrl p hm
  · intro h
    obtain ⟨anchors, ha⟩ := Option.isSome_iff_exists.mp h
    have hhub : (⟨afterScheme leekCalUrl, isoDate start, leekCalUrl,
        "leekduck"⟩ : Post) ∈ leekPagePosts fetchPage start leekEventsUrl ++
        leekPagePosts fetchPage start leekCalUrl := by
      apply List.mem_append_right
      rw [leekPagePosts, ha]
      exact List.mem_cons_self _ _
    obtain ⟨p, hpmem, hplast, hpurl⟩ := exists_last_of_mem _ leekCalUrl
      ⟨_, hhub, rfl⟩
    refine ⟨p, ?_, hpurl, ?_⟩
    · rw [discover_leek_posts]
      exact (mem_dedupByUrl _ p).mpr
        ⟨by rw [hpurl]; decide, by rw [hpurl]; exact hplast⟩
    · rcases List.mem_append.mp hpmem with hm | hm
      · exact leekPage_dates fetchPage start leekEventsUrl p hm
      · exact leekPage_dates fetchPage start leekCalUrl p hm

/-! ### Claim C7 -/

/-- C7: the persistence loop processes candidates in input order, a
candidate whose fetch fails (or whose URL is empty, so it is never
fetched) is skipped without aborting the batch and leaves no trace,
and the returned sequence is exactly the successfully-fetched
candidates in input order, each extended with its file name and its
content fingerprint. -/
theorem c7_save_posts_characterisation (fetchHtml : String → Option String)
    (sha : String → String) (today : String) (posts : List Post) :
    save_posts fetchHtml sha today posts =
      (posts.filter (fun p => !(p.url == "") && (fetchHtml p.url).isSome)).map
        (fun p =>
          { title := p.title, date := p.date, url := p.url, source := p.source,
            file := (if p.date = "" then today else p.date) ++ "_" ++
              safe_slug (if p.title = "" then p.url else p.title) 120 ++ ".html",
            sha256 := sha ((fetchHtml p.url).getD "") }) := by
  induction posts with
  | nil => rfl
  | cons p rest ih =>
    by_cases hu : p.url = ""
    · simp [save_posts, List.filter_cons, hu, ih]
    · cases hf : fetchHtml p.url with
      | none => simp [save_posts, List.filter_cons, hu, hf, ih]
      | some html => simp [save_posts, List.filter_cons, hu, hf, ih]

/-! ### Claim C8 -/

theorem listStarts_of_append (b1 b2 : List Char) :
    ∀ hay, listStarts hay (b1 ++ b2) = true → listStarts hay b1 = true := by
  induction b1 with
  | nil => intro hay _; cases hay <;> rfl
  | cons x xs ih =>
    intro hay h
    cases hay with
    | nil => exact absurd h (by simp [listStarts])
    | cons a as =>
      simp only [List.cons_append, listStarts, Bool.and_eq_true] at h ⊢
      exact ⟨h.1, ih as h.2⟩

/-- Containment of a concatenation gives containment of its first
part: if `n1 ++ n2` occurs in `hay` then so does `n1`. -/
theorem containsSub_of_append (hay n1 n2 : List Char)
    (h : containsSub hay (n1 ++ n2) = true) : containsSub hay n1 = true := by
  induction hay with
  | nil =>
    simp only [containsSub, List.isEmpty_iff, List.append_eq_nil] at h ⊢
    exact h.1
  | cons c rest ih =>
    simp only [containsSub, Bool.or_eq_true] at h ⊢
    rcases h with h | h
    · exact Or.inl (listStarts_of_append n1 n2 _ h)
    · exact Or.inr (ih h)

/-- C8 counterexample: the title `"Community Day Shadow Raid"`
contains `"shadow raid"`, yet the classifier answers
`"Community Day"`, because the community-day branch fires first; so
not every title containing `"shadow raid"` classifies as Shadow
Raid. -/
theorem c8_counterexample :
    containsStr (pyLower "Community Day Shadow Raid") "shadow raid" = true ∧
    classify_category "Community Day Shadow Raid" = "Community Day" := by
  decide

/-- C8 (amended): the classifier checks its substring rules in the
fixed if/elif order on the lowercased title.  Every title containing
`"community day classic"` classifies as CD Classic (never Community
Day).  Every title containing `"shadow raid"` is never classified
Raid/Mega, and classifies as Shadow Raid provided the title does not
also contain `"community day"` (a community-day phrase takes priority,
as the counterexample forces). -/
theorem c8_category_priority (title : String) :
    (containsStr (pyLower title) "community day classic" = true →
      classify_category title = "CD Classic") ∧
    (containsStr (pyLower title) "shadow raid" = true →
      classify_category title ≠ "Raid/Mega" ∧
      (containsStr (pyLower title) "community day" = false →
        classify_category title = "Shadow Raid")) := by
  constructor
  · intro h
    simp [classify_category, h]
  · intro h
    have hsplit : ("community day classic" : String).toList =
        ("community day" : String).toList ++ (" classic" : String).toList := by
      decide
    constructor
    · by_cases h1 : containsStr (pyLower title) "community day classic" = true
      · simp [classify_category, h1]
      · rw [Bool.not_eq_true] at h1
        by_cases h2 : containsStr (pyLower title) "community day" = true
        · simp [classify_category, h1, h2]
        · rw [Bool.not_eq_true] at h2
          simp [classify_category, h1, h2, h]
    · intro hcd
      have hcdc : containsStr (pyLower title) "community day classic" = false := by
        cases hc : containsStr (pyLower title) "community day classic" with
        | false => rfl
        | true =>
          exfalso
          have := containsSub_of_append (pyLower title).toList
            ("community day" : String).toList (" classic" : String).toList
            (by rw [← hsplit]; exact hc)
          rw [containsStr, this] at hcd
          simp at hcd
      simp [classify_category, hcdc, hcd, h]

/-- C8 witness: the two spec examples, a CD-Classic title and a
Shadow-Raid title, classified at their stated categories. -/
theorem c8_category_priority_witness :
    classify_category "Community Day Classic: Bulbasaur" = "CD Classic" ∧
    classify_category "Shadow Raid Weekend" = "Shadow Raid" :=
  ⟨(c8_category_priority "Community Day Classic: Bulbasaur").1 (by decide),
   ((c8_category_priority "Shadow Raid Weekend").2 (by decide)).2 (by decide)⟩

/-! ### Claim C9 -/

theorem slug_char_not_space (c : Char) (h : isSlugChar c = true) :
    myIsSpace c = false := by
  simp only [isSlugChar, Bool.or_eq_true, Bool.and_eq_true, decide_eq_true_eq,
    beq_iff_eq] at h
  cases hsp : myIsSpace c with
  | false => rfl
  | true =>
    exfalso
    simp only [myIsSpace, Bool.or_eq_true, beq_iff_eq] at hsp
    omega

theorem slug_char_lower (c : Char) (h : isSlugChar c = true) :
    pyLowerChar c = c := by
  simp only [isSlugChar, Bool.or_eq_true, Bool.and_eq_true, decide_eq_true_eq,
    beq_iff_eq] at h
  have hc : ¬ ((65 ≤ c.toNat && c.toNat ≤ 90) = true) := by
    simp only [Bool.and_eq_true, decide_eq_true_eq, not_and]
    omega
  unfold pyLowerChar
  rw [if_neg hc]

theorem dropWhile_no_space (l : List Char)
    (h : ∀ c ∈ l, myIsSpace c = false) : l.dropWhile myIsSpace = l := by
  cases l with
  | nil => rfl
  | cons a as =>
    rw [List.dropWhile_cons, if_neg]
    simp [h a (List.mem_cons_self a as)]

theorem stripEnds_no_space (l : List Char)
    (h : ∀ c ∈ l, myIsSpace c = false) : stripEnds l = l := by
  unfold stripEnds
  rw [dropWhile_no_space l h,
    dropWhile_no_space l.reverse (fun c hc => h c (List.mem_reverse.mp hc)),
    List.reverse_reverse]

theorem collapseAux_no_space (b : Bool) (l : List Char)
    (h : ∀ c ∈ l, myIsSpace c = false) : collapseAux b l = l := by
  induction l generalizing b with
  | nil => rfl
  | cons a as ih =>
    unfold collapseAux
    simp only [h a (List.mem_cons_self a as), Bool.false_eq_true, if_false]
    rw [ih false (fun c hc => h c (List.mem_cons_of_mem a hc))]

theorem map_lower_fixed (l : List Char)
    (h : ∀ c ∈ l, isSlugChar c = true) : l.map pyLowerChar = l := by
  induction l with
  | nil => rfl
  | cons a as ih =>
    rw [List.map_cons, slug_char_lower a (h a (List.mem_cons_self a as)),
      ih (fun c hc => h c (List.mem_cons_of_mem a hc))]

/-- A non-empty string over the slug alphabet of length at most
`maxlen` is a fixed point of the slug encoder. -/
theorem safe_slug_fixpoint (s : String) (maxlen : Nat)
    (hne : s.toList ≠ []) (hall : ∀ c ∈ s.toList, isSlugChar c = true)
    (hlen : s.toList.length ≤ maxlen) : safe_slug s maxlen = s := by
  have hnos : ∀ c ∈ s.toList, myIsSpace c = false :=
    fun c hc => slug_char_not_space c (hall c hc)
  unfold safe_slug
  rw [stripEnds_no_space s.toList hnos, map_lower_fixed s.toList hall]
  show (if ((collapseWs s.toList).filter isSlugChar).take maxlen |>.isEmpty
    then _ else _) = s
  rw [show collapseWs s.toList = s.toList from collapseAux_no_space false _ hnos,
    List.filter_eq_self.mpr hall, List.take_of_length_le hlen]
  rw [if_neg (by simpa [List.isEmpty_iff] using hne)]
  cases s
  rfl

/-- C9 counterexample: with `max_len = 5` and input `"!"`, the slug
falls back to the placeholder `"untitled"`, whose length 8 exceeds
`max_len`, and a second application truncates it, so `slugify` is not
idempotent either. -/
theorem c9_counterexample :
    safe_slug "!" 5 = "untitled" ∧ ¬ ((safe_slug "!" 5).length ≤ 5) ∧
    safe_slug (safe_slug "!" 5) 5 ≠ safe_slug "!" 5 := by decide

/-- C9 (amended): whenever `max_len` is at least 8 (the length of the
placeholder `"untitled"`), the slug is non-empty, has length at most
`max_len`, draws every character from `[a-z0-9-]`, and the encoder is
idempotent.  (For `max_len < 8` the placeholder fallback violates the
length bound and idempotence, as the counterexample shows.) -/
theorem c9_slug_properties (text : String) (maxlen : Nat) (h8 : 8 ≤ maxlen) :
    safe_slug text maxlen ≠ "" ∧
    (safe_slug text maxlen).length ≤ maxlen ∧
    (safe_slug text maxlen).toList.all isSlugChar = true ∧
    safe_slug (safe_slug text maxlen) maxlen = safe_slug text maxlen := by
  have huntitled : ∀ c ∈ ("untitled" : String).toList, isSlugChar c = true := by
    decide
  by_cases he :
      (((collapseWs ((stripEnds text.toList).map pyLowerChar)).filter
        isSlugChar).take maxlen).isEmpty = true
  · have hval : safe_slug text maxlen = "untitled" := by
      unfold safe_slug
      rw [if_pos he]
    refine ⟨by rw [hval]; decide, ?_, by rw [hval]; decide, ?_⟩
    · rw [hval]
      have h0 : ("untitled" : String).length = 8 := rfl
      omega
    · rw [hval]
      exact safe_slug_fixpoint "untitled" maxlen (by decide) huntitled
        (by
          have h0 : ("untitled" : String).toList.length = 8 := rfl
          omega)
  · have hval : safe_slug text maxlen =
        String.mk (((collapseWs ((stripEnds text.toList).map pyLowerChar)).filter
          isSlugChar).take maxlen) := by
      unfold safe_slug
      rw [if_neg he]
    have hne : ((collapseWs ((stripEnds text.toList).map pyLowerChar)).filter
        isSlugChar).take maxlen ≠ [] := by
      intro h0
      exact he (by rw [h0]; rfl)
    have hall : ∀ c ∈ ((collapseWs ((stripEnds text.toList).map
        pyLowerChar)).filter isSlugChar).take maxlen, isSlugChar c = true :=
      fun c hc => List.of_mem_filter (List.mem_of_mem_take hc)
    have hlen : (((collapseWs ((stripEnds text.toList).map
        pyLowerChar)).filter isSlugChar).take maxlen).length ≤ maxlen :=
      List.length_take_le maxlen _
    refine ⟨?_, ?_, ?_, ?_⟩
    · rw [hval]
      intro habs
      exact hne (congrArg String.data habs)
    · rw [hval]
      exact hlen
    · rw [hval]
      exact List.all_eq_true.mpr hall
    · rw [hval]
      exact safe_slug_fixpoint _ maxlen hne hall hlen

/-- C9 witness: the amended slug contract evaluated at
`"Hello World!"` with the default bound 120. -/
theorem c9_slug_properties_witness :
    safe_slug "Hello World!" 120 ≠ "" ∧
    (safe_slug "Hello World!" 120).length ≤ 120 ∧
    (safe_slug "Hello World!" 120).toList.all isSlugChar = true ∧
    safe_slug (safe_slug "Hello World!" 120) 120 =
      safe_slug "Hello World!" 120 :=
  c9_slug_properties "Hello World!" 120 (by omega)

/-! ### Claim C10 -/

/-- C10: the calendar export skips every digest row with an empty
Start Date (the emitted events are exactly as many as the rows with a
non-empty one), and every emitted VEVENT satisfies DTEND >= DTSTART:
the end is clamped up to the start when the End Date is empty or
formats below the start. -/
theorem c10_ics_invariant (uidOf : String → String → String)
    (rows : List DigestRow) (evs : List VEvent)
    (h : write_ics uidOf rows = some evs) :
    evs.length = (rows.filter (fun r => !(r.startDate == ""))).length ∧
    ∀ ev ∈ evs, strLtB ev.dtend ev.dtstart = false := by
  induction rows generalizing evs with
  | nil =>
    simp only [write_ics, Option.some.injEq] at h
    subst h
    simp
  | cons r rest ih =>
    by_cases hs : r.startDate = ""
    · have hr := ih evs (by simpa [write_ics, hs] using h)
      simpa [List.filter_cons, hs] using hr
    · rw [write_ics, if_neg hs] at h
      cases he : emitRow uidOf r with
      | none => rw [he] at h; exact absurd h (by simp)
      | some ev =>
        rw [he] at h
        obtain ⟨evs2, h1, h2⟩ := Option.map_eq_some'.mp h
        subst h2
        obtain ⟨hlen, hmem⟩ := ih evs2 h1
        refine ⟨by simp [List.filter_cons, hs, hlen], ?_⟩
        intro e hmem2
        rcases List.mem_cons.mp hmem2 with rfl | hm
        · exact emitRow_no_lt uidOf r e he
        · exact hmem e hm

/-- C10 witness: the invariant evaluated on a concrete digest with a
skipped empty-start row and a reversed-range row. -/
theorem c10_ics_invariant_witness :
    ([⟨"A", "20250910", "20250910", "A", "CD"⟩,
      ⟨"C", "20250912", "20250912", "C", "y"⟩] : List VEvent).length =
      (([⟨"2025-09-10", "", "A", "CD"⟩, ⟨"", "2025-09-12", "B", "x"⟩,
         ⟨"2025-09-12", "2025-09-10", "C", "y"⟩] : List DigestRow).filter
        (fun r => !(r.startDate == ""))).length ∧
    ∀ ev ∈ ([⟨"A", "20250910", "20250910", "A", "CD"⟩,
      ⟨"C", "20250912", "20250912", "C", "y"⟩] : List VEvent),
      strLtB ev.dtend ev.dtstart = false :=
  c10_ics_invariant (fun n _ => n)
    [⟨"2025-09-10", "", "A", "CD"⟩, ⟨"", "2025-09-12", "B", "x"⟩,
     ⟨"2025-09-12", "2025-09-10", "C", "y"⟩]
    [⟨"A", "20250910", "20250910", "A", "CD"⟩,
     ⟨"C", "20250912", "20250912", "C", "y"⟩] (by decide)

end Pogo
